import Mathlib

set_option maxRecDepth 10000

namespace Sha256

/-- Truncation to 32 bits, the wrapping arithmetic of Rust's `u32`. -/
def w32 (x : Nat) : Nat := x % 4294967296

/-- Model of `u32::rotate_left(n)` for a 32-bit word. -/
def rotl (n x : Nat) : Nat := w32 (x <<< n) ||| (x >>> (32 - n))

/-- Model of `const fn Ch(x, y, z) -> u32 { z ^ (x & (y ^ z)) }`. -/
def Ch (x y z : Nat) : Nat := z ^^^ (x &&& (y ^^^ z))

/-- Model of `const fn Maj(x, y, z) -> u32 { (x & y) | (z & (x | y)) }`. -/
def Maj (x y z : Nat) : Nat := (x &&& y) ||| (z &&& (x ||| y))

/-- Model of `const fn Sigma0(x) { x.rotate_left(30) ^ x.rotate_left(19) ^ x.rotate_left(10) }`. -/
def Sigma0 (x : Nat) : Nat := rotl 30 x ^^^ rotl 19 x ^^^ rotl 10 x

/-- Model of `const fn Sigma1(x) { x.rotate_left(26) ^ x.rotate_left(21) ^ x.rotate_left(7) }`. -/
def Sigma1 (x : Nat) : Nat := rotl 26 x ^^^ rotl 21 x ^^^ rotl 7 x

/-- Model of `const fn sigma0(x) { x.rotate_left(25) ^ x.rotate_left(14) ^ (x >> 3) }`. -/
def sigma0 (x : Nat) : Nat := rotl 25 x ^^^ rotl 14 x ^^^ (x >>> 3)

/-- Model of `const fn sigma1(x) { x.rotate_left(15) ^ x.rotate_left(13) ^ (x >> 10) }`. -/
def sigma1 (x : Nat) : Nat := rotl 15 x ^^^ rotl 13 x ^^^ (x >>> 10)

/-- The 64 SHA-256 round constants (the source writes them in hexadecimal;
they are listed here in decimal), in the order they appear in the unrolled
`round!` calls of `software_process_block` and `compute_midstate_unoptimized`. -/
def K : List Nat :=
  [1116352408, 1899447441, 3049323471, 3921009573, 961987163, 1508970993,
   2453635748, 2870763221, 3624381080, 310598401, 607225278, 1426881987,
   1925078388, 2162078206, 2614888103, 3248222580, 3835390401, 4022224774,
   264347078, 604807628, 770255983, 1249150122, 1555081692, 1996064986,
   2554220882, 2821834349, 2952996808, 3210313671, 3336571891, 3584528711,
   113926993, 338241895, 666307205, 773529912, 1294757372, 1396182291,
   1695183700, 1986661051, 2177026350, 2456956037, 2730485921, 2820302411,
   3259730800, 3345764771, 3516065817, 3600352804, 4094571909, 275423344,
   430227734, 506948616, 659060556, 883997877, 958139571, 1322822218,
   1537002063, 1747873779, 1955562222, 2024104815, 2227730452, 2361852424,
   2428436474, 2756734187, 3204031479, 3329325298]

/-- Model of `Midstate::read_u32`: a big-endian 32-bit read of four bytes.
Out-of-range reads yield byte 0; the safety claim is settled separately by a
checked variant that fails on any out-of-range access. -/
def read_u32 (bytes : List Nat) (index : Nat) : Nat :=
  ((bytes.getD (index + 0) 0) <<< 24) |||
  ((bytes.getD (index + 1) 0) <<< 16) |||
  ((bytes.getD (index + 2) 0) <<< 8) |||
  (bytes.getD (index + 3) 0)

/-- Model of `Midstate::copy_w`: sixteen big-endian words read from `bytes`
starting at `index` (the source `while i < 16` loop). -/
def copy_w (bytes : List Nat) (index : Nat) : List Nat :=
  (List.range 16).map fun i => read_u32 bytes (index + i * 4)

/-- Model of one expansion of the `round!` macro (first form): given the current
working variables `[a, b, c, d, e, f, g, h]`, a round constant `k` and a message
word `w`, produce the working variables for the next round.  The source rotates
the variable names between calls; the un-rotated effect of one call is
`d += t1; h = t1 + t2`, i.e. the new tuple is `(t1+t2, a, b, c, d+t1, e, f, g)`. -/
def rnd1 (k w : Nat) (s : List Nat) : List Nat :=
  let a := s.getD 0 0
  let b := s.getD 1 0
  let c := s.getD 2 0
  let d := s.getD 3 0
  let e := s.getD 4 0
  let f := s.getD 5 0
  let g := s.getD 6 0
  let h := s.getD 7 0
  let t1 := w32 (w32 (w32 (w32 (h + Sigma1 e) + Ch e f g) + k) + w)
  let t2 := w32 (Sigma0 a + Maj a b c)
  [w32 (t1 + t2), a, b, c, w32 (d + t1), e, f, g]

/-- The 64 unrolled rounds, with the sixteen-word sliding message schedule kept
in `w` indexed mod 16.  Round `t ≥ 16` first reassigns
`w[t%16] += sigma1(w[(t+14)%16]) + w[(t+9)%16] + sigma0(w[(t+1)%16])`
(the second form of the `round!` macro) and then performs the round with the new
word.  `fuel` is the number of rounds still to run (64 at the top call). -/
def roundsLoop : Nat → Nat → List Nat → List Nat → List Nat
  | 0, _, _, s => s
  | fuel+1, t, w, s =>
    if t < 16 then
      roundsLoop fuel (t+1) w (rnd1 (K.getD t 0) (w.getD t 0) s)
    else
      let i := t % 16
      let wi := w32 (w32 (w32 (w.getD i 0 + sigma1 (w.getD ((i + 14) % 16) 0)) +
        w.getD ((i + 9) % 16) 0) + sigma0 (w.getD ((i + 1) % 16) 0))
      roundsLoop fuel (t+1) (w.set i wi) (rnd1 (K.getD t 0) wi s)

/-- Shared body of `software_process_block` and of the per-chunk rounds of
`compute_midstate_unoptimized` (the source expands the same `round!` macro with
the same constants in both): run the 64 rounds on schedule `w` and add the
resulting working variables onto the state (`state[i] = state[i].wrapping_add(..)`). -/
def processWords (s w : List Nat) : List Nat :=
  List.zipWith (fun x y => w32 (x + y)) s (roundsLoop 64 0 w s)

/-- The SHA-256 compression function as the source computes it: build the
sixteen-word schedule from a 64-byte block and run the rounds. -/
def compress (s block : List Nat) : List Nat := processWords s (copy_w block 0)

/-- The FIPS 180-4 initial value, from `HashEngine::new` (decimal rendering
of 6a09e667, bb67ae85, 3c6ef372, a54ff53a, 510e527f, 9b05688c, 1f83d9ab,
5be0cd19). -/
def IV : List Nat :=
  [1779033703, 3144134277, 1013904242, 2773480762,
   1359893119, 2600822924, 528734635, 1541459225]

/-- Big-endian bytes of one 32-bit word, as in `u32::to_be_bytes` and in the
output loop of `compute_midstate_unoptimized` (`(state[i] >> 24) as u8`, ...). -/
def toBe32 (x : Nat) : List Nat := [(x >>> 24) % 256, (x >>> 16) % 256, (x >>> 8) % 256, x % 256]

/-- Big-endian serialization of the eight state words, as in
`midstate_unchecked` and the output loop of `compute_midstate_unoptimized`. -/
def serializeState (s : List Nat) : List Nat :=
  toBe32 (s.getD 0 0) ++ toBe32 (s.getD 1 0) ++ toBe32 (s.getD 2 0) ++ toBe32 (s.getD 3 0) ++
  toBe32 (s.getD 4 0) ++ toBe32 (s.getD 5 0) ++ toBe32 (s.getD 6 0) ++ toBe32 (s.getD 7 0)

/-- Big-endian bytes of a 64-bit value, as in `u64::to_be_bytes` and the
`buf[64 - 8] = ((bit_len >> 8 * 7) & 0xFF) as u8` ... writes of
`compute_midstate_unoptimized`. -/
def be64 (x : Nat) : List Nat :=
  [(x >>> 56) % 256, (x >>> 48) % 256, (x >>> 40) % 256, (x >>> 32) % 256,
   (x >>> 24) % 256, (x >>> 16) % 256, (x >>> 8) % 256, x % 256]

/-- Model of `struct Midstate { bytes: [u8; 32], bytes_hashed: u64 }`. -/
structure Midstate where
  bytes : List Nat
  bytes_hashed : Nat
deriving DecidableEq

/-- Model of `struct MidstateError { invalid_n_bytes_hashed: u64 }`. -/
structure MidstateError where
  invalid_n_bytes_hashed : Nat
deriving DecidableEq

/-- Model of `Midstate::new`, with `none` standing for the `panic!`
(compile-halt in const context) on a `bytes_hashed` that is not a multiple
of 64. -/
def Midstate.new (state : List Nat) (bytes_hashed : Nat) : Option Midstate :=
  if bytes_hashed % 64 ≠ 0 then none
  else some { bytes := state, bytes_hashed := bytes_hashed }

/-- Model of `struct HashEngine { buffer: [u8; 64], h: [u32; 8], bytes_hashed: u64 }`.
The `buffer` field holds only the valid prefix of the staging area, i.e. the
`bytes_hashed % 64` live bytes; the stale suffix of the Rust array never
influences any observable result. -/
structure HashEngine where
  buffer : List Nat
  h : List Nat
  bytes_hashed : Nat
deriving DecidableEq

/-- Model of `HashEngine::new`. -/
def HashEngine.new : HashEngine := { buffer := [], h := IV, bytes_hashed := 0 }

/-- Modelled from the spec: `incomplete_block_len` lives in the crate root, not
in this file; per the spec invariant "`bytes_hashed mod 64` is the number of
valid bytes at the start of `buffer`", it returns `bytes_hashed % 64`. -/
def incompleteBlockLen (e : HashEngine) : Nat := e.bytes_hashed % 64

/-- Modelled from the spec: the body of the `engine_input_impl!` macro is not in
this file.  Per §4.2: "copy bytes into the trailing free region of `buffer`;
whenever `buffer` becomes full, invoke the compression primitive, clear the
buffer's logical length, and continue with the remainder".  `fuel` bounds the
number of copy steps; `data.length` suffices because every step consumes at
least one input byte.  Returns the new `(h, buffer)`. -/
def inputAux : Nat → List Nat → List Nat → List Nat → List Nat × List Nat
  | 0, h, buf, _ => (h, buf)
  | fuel+1, h, buf, data =>
    if data = [] then (h, buf)
    else
      let write := min (64 - buf.length) data.length
      let buf2 := buf ++ data.take write
      if buf2.length = 64 then inputAux fuel (compress h buf2) [] (data.drop write)
      else inputAux fuel h buf2 (data.drop write)

/-- Modelled from the spec: `input` appends `data` to the engine (see
`inputAux`) and advances `bytes_hashed` by `data.len()`. -/
def HashEngine.inputE (e : HashEngine) (data : List Nat) : HashEngine :=
  { buffer := (inputAux data.length e.h e.buffer data).2,
    h := (inputAux data.length e.h e.buffer data).1,
    bytes_hashed := e.bytes_hashed + data.length }

/-- Model of `HashEngine::can_extract_midstate`. -/
def HashEngine.canExtractMidstate (e : HashEngine) : Bool := e.bytes_hashed % 64 == 0

/-- Model of `HashEngine::midstate_unchecked` (the non-fuzz version): serialize
the state big-endian word by word. -/
def HashEngine.midstateUnchecked (e : HashEngine) : Midstate :=
  { bytes := serializeState e.h, bytes_hashed := e.bytes_hashed }

/-- Model of `HashEngine::midstate`. -/
def HashEngine.midstate (e : HashEngine) : Except MidstateError Midstate :=
  if ¬ e.canExtractMidstate then .error { invalid_n_bytes_hashed := e.bytes_hashed }
  else .ok e.midstateUnchecked

/-- Model of `HashEngine::from_midstate`: decode the 32 midstate bytes as eight
big-endian words (`u32::from_be_bytes` over `chunks_exact(4)`, numerically the
same read as `read_u32`). -/
def HashEngine.fromMidstate (m : Midstate) : HashEngine :=
  { buffer := [],
    h := [read_u32 m.bytes 0, read_u32 m.bytes 4, read_u32 m.bytes 8, read_u32 m.bytes 12,
          read_u32 m.bytes 16, read_u32 m.bytes 20, read_u32 m.bytes 24, read_u32 m.bytes 28],
    bytes_hashed := m.bytes_hashed }

/-- Model of `from_engine` (the non-fuzz version): append `0x80`, zero bytes up
to the last 8 bytes of a block, then the original bit length big-endian, and
read out the state.  `n_bytes_hashed` is recorded before padding. -/
def fromEngine (e : HashEngine) : List Nat :=
  let n := e.bytes_hashed
  let e1 := e.inputE [0x80]
  let e2 := if 56 < incompleteBlockLen e1 then e1.inputE (List.replicate 56 0) else e1
  let padLength := 56 - incompleteBlockLen e2
  let e3 := e2.inputE ((List.replicate 56 0).take padLength)
  let e4 := e3.inputE (be64 ((8 * n) % 18446744073709551616))
  e4.midstateUnchecked.bytes

/-- Modelled from the spec: `hash(bytes)` (defined by the `general_hash_type!`
macro outside this file) feeds the bytes into a fresh engine and finalizes. -/
def hash (s : List Nat) : List Nat := fromEngine (HashEngine.new.inputE s)

/-- Model of the byte-copy loop of `compute_midstate_unoptimized`
(`while offset + i < bytes.len() { buf[i] = bytes[offset + i]; i += 1; }`).
`fuel` bounds the trip count; `bytes.length` suffices.  Returns the updated
staging buffer together with the final value of `i`. -/
def cmCopyLoop : Nat → List Nat → Nat → List Nat → Nat → List Nat × Nat
  | 0, _, _, buf, i => (buf, i)
  | fuel+1, bytes, offset, buf, i =>
    if offset + i < bytes.length then
      cmCopyLoop fuel bytes offset (buf.set i (bytes.getD (offset + i) 0)) (i + 1)
    else (buf, i)

/-- Model of the eight `buf[64 - 8] = ...` writes that place the big-endian bit
length in the last chunk of `compute_midstate_unoptimized`. -/
def cmBitLenFill (buf : List Nat) (bitLen : Nat) : List Nat :=
  ((((((((buf.set 56 ((bitLen >>> 56) % 256)).set 57 ((bitLen >>> 48) % 256)).set 58
    ((bitLen >>> 40) % 256)).set 59 ((bitLen >>> 32) % 256)).set 60
    ((bitLen >>> 24) % 256)).set 61 ((bitLen >>> 16) % 256)).set 62
    ((bitLen >>> 8) % 256)).set 63 (bitLen % 256))

/-- Model of the chunk loop of `compute_midstate_unoptimized`.  `fuel` bounds
the trip count (`numChunks` suffices since `chunk` increases each iteration).
Mirrors the source: stop when `chunk` reaches `numChunks`; when `finalize` is
false stop before the last chunk; take the schedule directly from `bytes` for a
full in-range chunk, otherwise build the staging buffer with the `0x80`
delimiter and, on the last chunk, the bit length. -/
def cmLoop : Nat → Nat → List Nat → Bool → Nat → List Nat → List Nat
  | 0, _, _, _, _, state => state
  | fuel+1, chunk, bytes, finalize, numChunks, state =>
    if chunk < numChunks then
      if finalize = false ∧ chunk + 1 = numChunks then state
      else
        let w :=
          if chunk * 64 + 64 ≤ bytes.length then copy_w bytes (chunk * 64)
          else
            let bi := cmCopyLoop bytes.length bytes (chunk * 64) (List.replicate 64 0) 0
            let buf1 := if bytes.length % 64 ≤ 64 - 9 ∨ chunk + 2 = numChunks
              then bi.1.set bi.2 0x80 else bi.1
            let buf2 := if chunk + 1 = numChunks
              then cmBitLenFill buf1 ((bytes.length * 8) % 18446744073709551616) else buf1
            copy_w buf2 0
        cmLoop fuel (chunk + 1) bytes finalize numChunks (processWords state w)
    else state

/-- Model of `Midstate::compute_midstate_unoptimized`. -/
def computeMidstateUnoptimized (bytes : List Nat) (finalize : Bool) : Midstate :=
  let numChunks := (bytes.length + 9 + 63) / 64
  { bytes := serializeState (cmLoop numChunks 0 bytes finalize numChunks IV),
    bytes_hashed := bytes.length }

/-- Model of `Hash::hash_unoptimized`. -/
def hashUnoptimized (bytes : List Nat) : List Nat :=
  (computeMidstateUnoptimized bytes true).bytes

/-- Model of the 64-byte buffer built by `Midstate::hash_tag`
(`buf[i] = hash[i % hash.len()]` for `i < 64`). -/
def tagBuf (h : List Nat) : List Nat :=
  (List.range 64).map fun i => h.getD (i % h.length) 0

/-- Model of `Midstate::hash_tag`. -/
def hashTag (tag : List Nat) : Midstate :=
  computeMidstateUnoptimized (tagBuf (hashUnoptimized tag)) false

/-! Reference decomposition of a byte stream into 64-byte blocks, used to state
what the engine and the const path compute. -/

/-- First `k` consecutive 64-byte blocks of `m`. -/
def chunksCnt : Nat → List Nat → List (List Nat)
  | 0, _ => []
  | k+1, m => m.take 64 :: chunksCnt k (m.drop 64)

/-- All complete 64-byte blocks of `m`, in order. -/
def fullBlocks (m : List Nat) : List (List Nat) := chunksCnt (m.length / 64) m

/-- The trailing bytes of `m` after its complete 64-byte blocks. -/
def remBytes (m : List Nat) : List Nat := m.drop (64 * (m.length / 64))

/-- The FIPS 180-4 padded message: the input, a `0x80` byte, zeros up to 8
bytes short of a block boundary, and the bit length as a big-endian 64-bit
integer. -/
def padMsg (s : List Nat) : List Nat :=
  s ++ [0x80] ++ List.replicate ((119 - s.length % 64) % 64) 0 ++
    be64 ((8 * s.length) % 18446744073709551616)

/-- One byte of engine input: append to the staging buffer and compress when it
reaches a full block.  Feeding bytes one at a time is extensionally the same as
the chunked copy of `inputAux`; the bridge is proved below. -/
def step1 (p : List Nat × List Nat) (b : Nat) : List Nat × List Nat :=
  if (p.2 ++ [b]).length = 64 then (compress p.1 (p.2 ++ [b]), []) else (p.1, p.2 ++ [b])

/-- Byte-at-a-time absorption of a whole data list. -/
def stepBytes (p : List Nat × List Nat) (data : List Nat) : List Nat × List Nat :=
  data.foldl step1 p

theorem fullBlocks_small {m : List Nat} (h : m.length < 64) : fullBlocks m = [] := by
  unfold fullBlocks
  have : m.length / 64 = 0 := by omega
  rw [this]
  rfl

theorem remBytes_small {m : List Nat} (h : m.length < 64) : remBytes m = m := by
  unfold remBytes
  have : m.length / 64 = 0 := by omega
  rw [this]
  rfl

theorem fullBlocks_cons {m : List Nat} (h : 64 ≤ m.length) :
    fullBlocks m = m.take 64 :: fullBlocks (m.drop 64) := by
  unfold fullBlocks
  have h1 : m.length / 64 = (m.drop 64).length / 64 + 1 := by
    simp only [List.length_drop]
    omega
  rw [h1]
  rfl

theorem remBytes_cons {m : List Nat} (h : 64 ≤ m.length) :
    remBytes m = remBytes (m.drop 64) := by
  unfold remBytes
  rw [List.drop_drop]
  congr 1
  simp only [List.length_drop]
  omega

theorem remBytes_length (m : List Nat) : (remBytes m).length = m.length % 64 := by
  unfold remBytes
  simp only [List.length_drop]
  omega

theorem stepBytes_append (p : List Nat × List Nat) (d1 d2 : List Nat) :
    stepBytes p (d1 ++ d2) = stepBytes (stepBytes p d1) d2 :=
  List.foldl_append ..

theorem stepBytes_small (h buf d : List Nat) (hb : buf.length < 64)
    (hle : buf.length + d.length ≤ 64) :
    stepBytes (h, buf) d =
      if buf.length + d.length = 64 then (compress h (buf ++ d), []) else (h, buf ++ d) := by
  induction d generalizing buf with
  | nil =>
    simp only [List.length_nil, Nat.add_zero] at hle ⊢
    rw [if_neg (by omega)]
    simp [stepBytes]
  | cons b d ih =>
    show stepBytes (step1 (h, buf) b) d = _
    unfold step1
    simp only [List.length_append, List.length_cons, List.length_nil] at *
    by_cases hfull : buf.length + 1 = 64
    · rw [if_pos (by simpa using hfull)]
      have hd : d = [] := by
        cases d with
        | nil => rfl
        | cons x xs => simp at hle; omega
      subst hd
      simp only [stepBytes, List.foldl_nil]
      rw [if_pos (by simp; omega)]
    · rw [if_neg (by simpa using hfull)]
      rw [ih (buf ++ [b]) (by simp; omega) (by simp; omega)]
      by_cases hc : buf.length + (d.length + 1) = 64
      · rw [if_pos (by simp; omega), if_pos (by omega)]
        simp
      · rw [if_neg (by simp; omega), if_neg (by omega)]
        simp

theorem inputAux_nil (fuel : Nat) (h buf : List Nat) : inputAux fuel h buf [] = (h, buf) := by
  cases fuel with
  | zero => rfl
  | succ fuel => simp [inputAux]

theorem inputAux_eq_stepBytes (fuel : Nat) (h buf data : List Nat) (hb : buf.length < 64)
    (hf : data.length ≤ fuel) : inputAux fuel h buf data = stepBytes (h, buf) data := by
  induction fuel generalizing h buf data with
  | zero =>
    have hd : data = [] := by
      cases data with
      | nil => rfl
      | cons x xs => simp at hf
    subst hd
    simp [inputAux_nil, stepBytes]
  | succ fuel ih =>
    by_cases hd : data = []
    · subst hd
      simp [inputAux_nil, stepBytes]
    · have hd1 : 1 ≤ data.length := by
        cases data with
        | nil => exact absurd rfl hd
        | cons x xs => simp
      unfold inputAux
      rw [if_neg hd]
      have hwle : min (64 - buf.length) data.length ≤ data.length := Nat.min_le_right ..
      have hw1 : 1 ≤ min (64 - buf.length) data.length := by omega
      have hlen2 : (buf ++ data.take (min (64 - buf.length) data.length)).length =
          buf.length + min (64 - buf.length) data.length := by
        simp only [List.length_append, List.length_take]
        omega
      by_cases hfull : (buf ++ data.take (min (64 - buf.length) data.length)).length = 64
      · rw [if_pos hfull]
        rw [ih (compress h (buf ++ data.take (min (64 - buf.length) data.length))) []
          (data.drop (min (64 - buf.length) data.length)) (by simp) (by simp; omega)]
        conv_rhs => rw [← List.take_append_drop (min (64 - buf.length) data.length) data,
          stepBytes_append]
        rw [stepBytes_small h buf (data.take (min (64 - buf.length) data.length)) hb
          (by simp only [List.length_take]; omega)]
        rw [if_pos (by simp only [List.length_take]; omega)]
      · rw [if_neg hfull]
        have hwd : min (64 - buf.length) data.length = data.length := by omega
        rw [ih h (buf ++ data.take (min (64 - buf.length) data.length))
          (data.drop (min (64 - buf.length) data.length)) (by omega) (by simp; omega)]
        rw [hwd, List.take_length, List.drop_length]
        rw [stepBytes_small h buf data hb (by omega), if_neg (by omega)]
        simp [stepBytes]

theorem stepBytes_char : ∀ n (data h buf : List Nat), data.length = n → buf.length < 64 →
    stepBytes (h, buf) data =
      (List.foldl compress h (fullBlocks (buf ++ data)), remBytes (buf ++ data)) := by
  intro n
  induction n using Nat.strong_induction_on with
  | _ n ih =>
    intro data h buf hn hb
    by_cases hsmall : buf.length + data.length < 64
    · rw [stepBytes_small h buf data hb (by omega), if_neg (by omega)]
      rw [fullBlocks_small (by simp; omega), remBytes_small (by simp; omega)]
      simp
    · have hd1 : 1 ≤ data.length := by omega
      have htk : (data.take (64 - buf.length)).length = 64 - buf.length := by
        simp only [List.length_take]
        omega
      conv_lhs => rw [← List.take_append_drop (64 - buf.length) data, stepBytes_append]
      rw [stepBytes_small h buf (data.take (64 - buf.length)) hb (by omega), if_pos (by omega)]
      rw [ih (data.drop (64 - buf.length)).length (by simp; omega)
        (data.drop (64 - buf.length)) (compress h (buf ++ data.take (64 - buf.length))) []
        rfl (by simp)]
      simp only [List.nil_append]
      conv_rhs => rw [← List.take_append_drop (64 - buf.length) data, ← List.append_assoc]
      have hA : (buf ++ data.take (64 - buf.length)).length = 64 := by
        simp only [List.length_append]
        omega
      have hBlen :
          64 ≤ ((buf ++ data.take (64 - buf.length)) ++ data.drop (64 - buf.length)).length := by
        rw [List.length_append, hA]
        omega
      conv_rhs => rw [fullBlocks_cons hBlen, remBytes_cons hBlen]
      rw [List.take_left' hA, List.drop_left' hA]
      simp

/-- Characterization of engine input: starting from a buffer shorter than a
block, the engine's state after `inputE` is the compression of every complete
block of `buffer ++ data` and its buffer is the remainder. -/
theorem inputE_char (e : HashEngine) (data : List Nat) (hb : e.buffer.length < 64) :
    e.inputE data =
      { buffer := remBytes (e.buffer ++ data),
        h := List.foldl compress e.h (fullBlocks (e.buffer ++ data)),
        bytes_hashed := e.bytes_hashed + data.length } := by
  unfold HashEngine.inputE
  rw [inputAux_eq_stepBytes data.length e.h e.buffer data hb (le_refl _)]
  rw [stepBytes_char data.length data e.h e.buffer rfl hb]

theorem fullBlocks_split_aux : ∀ (n : Nat) (m t : List Nat), m.length = n →
    fullBlocks (m ++ t) = fullBlocks m ++ fullBlocks (remBytes m ++ t) ∧
    remBytes (m ++ t) = remBytes (remBytes m ++ t) := by
  intro n
  induction n using Nat.strong_induction_on with
  | _ n ih =>
    intro m t hn
    by_cases hsmall : m.length < 64
    · rw [fullBlocks_small hsmall, remBytes_small hsmall]
      simp
    · have h64 : 64 ≤ m.length := by omega
      have hdd : (m ++ t).drop 64 = m.drop 64 ++ t := by
        rw [List.drop_append_eq_append_drop]
        have h0 : 64 - m.length = 0 := by omega
        rw [h0]
        simp
      have htt : (m ++ t).take 64 = m.take 64 := by
        rw [List.take_append_eq_append_take]
        have h0 : 64 - m.length = 0 := by omega
        rw [h0]
        simp
      have hlt : (m.drop 64).length < m.length := by
        simp only [List.length_drop]
        omega
      obtain ⟨ihf, ihr⟩ := ih (m.drop 64).length (by omega) (m.drop 64) t rfl
      constructor
      · rw [fullBlocks_cons (by simp only [List.length_append]; omega), fullBlocks_cons h64]
        rw [htt, hdd, ihf, remBytes_cons h64]
        simp
      · rw [remBytes_cons (by simp only [List.length_append]; omega), remBytes_cons h64, hdd, ihr]

theorem fullBlocks_split (m t : List Nat) :
    fullBlocks (m ++ t) = fullBlocks m ++ fullBlocks (remBytes m ++ t) ∧
    remBytes (m ++ t) = remBytes (remBytes m ++ t) :=
  fullBlocks_split_aux m.length m t rfl

/-- Feeding `a` and then `b` is the same engine as feeding `a ++ b`. -/
theorem inputE_comp (e : HashEngine) (a b : List Nat) (hb : e.buffer.length < 64) :
    (e.inputE a).inputE b = e.inputE (a ++ b) := by
  rw [inputE_char e a hb]
  rw [inputE_char _ b (by simp only [remBytes_length]; omega)]
  rw [inputE_char e (a ++ b) hb]
  rw [← List.append_assoc e.buffer a b]
  obtain ⟨hf, hr⟩ := fullBlocks_split (e.buffer ++ a) b
  rw [hf, hr]
  simp [List.foldl_append, Nat.add_assoc]

theorem newE_bytes_hashed (m : List Nat) :
    (HashEngine.new.inputE m).bytes_hashed = m.length := by
  simp [HashEngine.inputE, HashEngine.new]

theorem newE_buffer (m : List Nat) :
    (HashEngine.new.inputE m).buffer = remBytes m := by
  rw [inputE_char HashEngine.new m (by simp [HashEngine.new])]
  simp [HashEngine.new]

theorem newE_h (m : List Nat) :
    (HashEngine.new.inputE m).h = List.foldl compress IV (fullBlocks m) := by
  rw [inputE_char HashEngine.new m (by simp [HashEngine.new])]
  simp [HashEngine.new]

theorem newE_inputE (m x : List Nat) :
    (HashEngine.new.inputE m).inputE x = HashEngine.new.inputE (m ++ x) :=
  inputE_comp HashEngine.new m x (by simp [HashEngine.new])

theorem incompleteBlockLen_newE (m : List Nat) :
    incompleteBlockLen (HashEngine.new.inputE m) = m.length % 64 := by
  simp [incompleteBlockLen, newE_bytes_hashed]

theorem padMsg_length (s : List Nat) :
    (padMsg s).length = s.length + 1 + (119 - s.length % 64) % 64 + 8 := by
  simp [padMsg, be64]
  omega

theorem padMsg_mod (s : List Nat) : (padMsg s).length % 64 = 0 := by
  rw [padMsg_length]
  omega

/-- Streaming finalization computes the digest of the FIPS-padded message: the
padding fed by `from_engine` is exactly `0x80`, `(119 - len % 64) % 64` zero
bytes, and the 64-bit big-endian bit count. -/
theorem fromEngine_newE (m : List Nat) :
    fromEngine (HashEngine.new.inputE m) =
      serializeState (HashEngine.new.inputE (padMsg m)).h := by
  have hpad : ∀ x : List Nat, x = padMsg m →
      serializeState (HashEngine.new.inputE x).h =
      serializeState (HashEngine.new.inputE (padMsg m)).h := by
    intro x hx
    rw [hx]
  simp only [fromEngine, newE_bytes_hashed, newE_inputE, incompleteBlockLen_newE,
    HashEngine.midstateUnchecked]
  by_cases hc : 56 < ((m ++ [0x80]).length % 64)
  · rw [if_pos hc]
    simp only [newE_inputE, incompleteBlockLen_newE]
    apply hpad
    simp only [List.length_append, List.length_cons, List.length_nil, List.length_replicate,
      List.take_replicate] at *
    have hmin : min (56 - (m.length + 1 + 56) % 64) 56 = 56 - (m.length + 1 + 56) % 64 := by
      omega
    rw [hmin]
    simp only [padMsg, List.append_assoc]
    congr 2
    rw [← List.append_assoc, ← List.replicate_add]
    congr 2
    omega
  · rw [if_neg hc]
    simp only [newE_inputE, incompleteBlockLen_newE]
    apply hpad
    simp only [List.length_append, List.length_cons, List.length_nil, List.take_replicate] at *
    have hmin : min (56 - (m.length + 1) % 64) 56 = 56 - (m.length + 1) % 64 := by
      omega
    rw [hmin]
    simp only [padMsg, List.append_assoc]
    congr 2
    congr 2
    omega

/-- The digest of the streaming path, as a fold of the compression function
over the blocks of the padded message. -/
theorem hash_char (s : List Nat) :
    hash s = serializeState (List.foldl compress IV (fullBlocks (padMsg s))) := by
  unfold hash
  rw [fromEngine_newE, newE_h]

theorem cmCopyLoop_char : ∀ (cnt fuel : Nat) (bytes : List Nat) (offset : Nat) (buf : List Nat)
    (i : Nat), cnt = bytes.length - (offset + i) → cnt ≤ fuel → i + cnt ≤ buf.length →
    cmCopyLoop fuel bytes offset buf i =
      (buf.take i ++ bytes.drop (offset + i) ++ buf.drop (i + cnt), i + cnt) := by
  intro cnt
  induction cnt with
  | zero =>
    intro fuel bytes offset buf i hcnt hfuel hle
    have hdrop : bytes.drop (offset + i) = [] := List.drop_eq_nil_of_le (by omega)
    have hstop : cmCopyLoop fuel bytes offset buf i = (buf, i) := by
      cases fuel with
      | zero => rfl
      | succ f =>
        unfold cmCopyLoop
        rw [if_neg (by omega)]
    rw [hstop, hdrop]
    simp
  | succ cnt ih =>
    intro fuel bytes offset buf i hcnt hfuel hle
    obtain ⟨f, rfl⟩ : ∃ f, fuel = f + 1 := ⟨fuel - 1, by omega⟩
    have hin : offset + i < bytes.length := by omega
    have hib : i < buf.length := by omega
    unfold cmCopyLoop
    rw [if_pos hin]
    rw [ih f bytes offset (buf.set i (bytes.getD (offset + i) 0)) (i + 1)
      (by omega) (by omega) (by simp only [List.length_set]; omega)]
    have hset : buf.set i (bytes.getD (offset + i) 0) =
        buf.take i ++ bytes.getD (offset + i) 0 :: buf.drop (i + 1) := by
      rw [List.set_eq_take_append_cons_drop, if_pos hib]
    have hlti : (buf.take i).length = i := by
      simp only [List.length_take]
      omega
    have htake : (buf.set i (bytes.getD (offset + i) 0)).take (i + 1) =
        buf.take i ++ [bytes.getD (offset + i) 0] := by
      rw [hset, List.take_append_eq_append_take, List.take_take, hlti]
      have h1 : min (i + 1) i = i := by omega
      have h2 : i + 1 - i = 1 := by omega
      rw [h1, h2]
      rfl
    have hdrop2 : (buf.set i (bytes.getD (offset + i) 0)).drop (i + 1 + cnt) =
        buf.drop (i + 1 + cnt) := by
      rw [hset, List.drop_append_eq_append_drop]
      rw [List.drop_eq_nil_of_le (by rw [hlti]; omega), hlti]
      have h1 : i + 1 + cnt - i = cnt + 1 := by omega
      rw [h1]
      show List.drop cnt (buf.drop (i + 1)) = _
      rw [List.drop_drop]
    have hbytes : bytes.drop (offset + i) =
        bytes.getD (offset + i) 0 :: bytes.drop (offset + i + 1) := by
      rw [List.drop_eq_getElem_cons hin, List.getD_eq_getElem bytes 0 hin]
    rw [htake, hdrop2, hbytes]
    have hidx : offset + (i + 1) = offset + i + 1 := by omega
    have hidx2 : i + 1 + cnt = i + (cnt + 1) := by omega
    rw [hidx, hidx2]
    simp

/-- The staging-buffer copy loop: starting from a fresh 64-byte zero buffer it
writes the input tail `bytes[offset..]` over the front and returns its length. -/
theorem cmCopyLoop_staging (bytes : List Nat) (offset : Nat)
    (hle : bytes.length - offset ≤ 64) :
    cmCopyLoop bytes.length bytes offset (List.replicate 64 0) 0 =
      (bytes.drop offset ++ List.replicate (64 - (bytes.length - offset)) 0,
        bytes.length - offset) := by
  rw [cmCopyLoop_char (bytes.length - offset) bytes.length bytes offset (List.replicate 64 0) 0
    (by omega) (by omega) (by simp only [List.length_replicate]; omega)]
  rw [List.drop_replicate]
  simp

theorem getD_slice (bytes : List Nat) (off j : Nat) (hj : j < 64)
    (hin : off + 64 ≤ bytes.length) :
    ((bytes.drop off).take 64).getD j 0 = bytes.getD (off + j) 0 := by
  rw [List.getD_eq_getElem?_getD, List.getD_eq_getElem?_getD]
  rw [List.getElem?_take, if_pos hj, List.getElem?_drop]

theorem read_u32_slice (bytes : List Nat) (off j : Nat) (hj : j + 4 ≤ 64)
    (hin : off + 64 ≤ bytes.length) :
    read_u32 ((bytes.drop off).take 64) j = read_u32 bytes (off + j) := by
  unfold read_u32
  rw [getD_slice bytes off (j + 0) (by omega) hin, getD_slice bytes off (j + 1) (by omega) hin,
    getD_slice bytes off (j + 2) (by omega) hin, getD_slice bytes off (j + 3) (by omega) hin]
  have h0 : off + (j + 0) = off + j + 0 := by omega
  have h1 : off + (j + 1) = off + j + 1 := by omega
  have h2 : off + (j + 2) = off + j + 2 := by omega
  have h3 : off + (j + 3) = off + j + 3 := by omega
  rw [h0, h1, h2, h3]

/-- Reading the schedule at an in-range offset equals reading it from the
corresponding 64-byte slice. -/
theorem copy_w_slice (bytes : List Nat) (off : Nat) (hin : off + 64 ≤ bytes.length) :
    copy_w bytes off = copy_w ((bytes.drop off).take 64) 0 := by
  unfold copy_w
  apply List.map_congr_left
  intro i hi
  have hi16 : i < 16 := List.mem_range.mp hi
  have h0 : 0 + i * 4 = i * 4 := by omega
  rw [h0, read_u32_slice bytes off (i * 4) (by omega) hin]

/-- Filling the trailing 8 bytes with the big-endian bit length. -/
theorem cmBitLenFill_append (A : List Nat) (bitLen : Nat) (hA : A.length = 56) :
    cmBitLenFill (A ++ List.replicate 8 0) bitLen = A ++ be64 bitLen := by
  have hrep : List.replicate 8 (0 : Nat) = [0, 0, 0, 0, 0, 0, 0, 0] := rfl
  unfold cmBitLenFill be64
  rw [hrep]
  simp [List.set_append, hA]

theorem padMsg_eq (bytes : List Nat) :
    padMsg bytes = bytes ++ ([0x80] ++ List.replicate ((119 - bytes.length % 64) % 64) 0 ++
      be64 ((8 * bytes.length) % 18446744073709551616)) := by
  simp [padMsg]

theorem numChunks_padMsg (bytes : List Nat) :
    (padMsg bytes).length = 64 * ((bytes.length + 9 + 63) / 64) := by
  rw [padMsg_length]
  omega

theorem set_after (tail : List Nat) (m : Nat) (hm : 1 ≤ m) :
    (tail ++ List.replicate m 0).set tail.length 0x80 =
      tail ++ 0x80 :: List.replicate (m - 1) 0 := by
  rw [List.set_append, if_neg (by omega), Nat.sub_self]
  obtain ⟨m', rfl⟩ : ∃ m', m = m' + 1 := ⟨m - 1, by omega⟩
  rw [List.replicate_succ]
  rfl

/-- The chunk of the padded message that the staging buffer of
`compute_midstate_unoptimized` reproduces at the given in-bounds chunk index
(finalizing run): the staging buffer, after the `0x80` and bit-length writes,
is exactly the corresponding 64-byte block of `padMsg`. -/
theorem cm_staging_block (bytes : List Nat) (c : Nat)
    (hc : c < (bytes.length + 9 + 63) / 64) (hns : ¬ c * 64 + 64 ≤ bytes.length) :
    (if c + 1 = (bytes.length + 9 + 63) / 64 then
      cmBitLenFill
        (if bytes.length % 64 ≤ 64 - 9 ∨ c + 2 = (bytes.length + 9 + 63) / 64 then
          (cmCopyLoop bytes.length bytes (c * 64) (List.replicate 64 0) 0).1.set
            (cmCopyLoop bytes.length bytes (c * 64) (List.replicate 64 0) 0).2 0x80
        else (cmCopyLoop bytes.length bytes (c * 64) (List.replicate 64 0) 0).1)
        ((bytes.length * 8) % 18446744073709551616)
    else
      (if bytes.length % 64 ≤ 64 - 9 ∨ c + 2 = (bytes.length + 9 + 63) / 64 then
        (cmCopyLoop bytes.length bytes (c * 64) (List.replicate 64 0) 0).1.set
          (cmCopyLoop bytes.length bytes (c * 64) (List.replicate 64 0) 0).2 0x80
      else (cmCopyLoop bytes.length bytes (c * 64) (List.replicate 64 0) 0).1)) =
    ((padMsg bytes).drop (c * 64)).take 64 := by
  have hcp : cmCopyLoop bytes.length bytes (c * 64) (List.replicate 64 0) 0 =
      (bytes.drop (c * 64) ++ List.replicate (64 - (bytes.length - c * 64)) 0,
        bytes.length - c * 64) :=
    cmCopyLoop_staging bytes (c * 64) (by omega)
  rw [hcp]
  have htail : (bytes.drop (c * 64)).length = bytes.length - c * 64 :=
    List.length_drop ..
  have hset : (bytes.drop (c * 64) ++ List.replicate (64 - (bytes.length - c * 64)) 0).set
      (bytes.length - c * 64) 0x80 =
      bytes.drop (c * 64) ++ 0x80 :: List.replicate (64 - (bytes.length - c * 64) - 1) 0 := by
    rw [← htail]
    exact set_after _ _ (by omega)
  by_cases hck : c * 64 ≤ bytes.length
  · -- the chunk containing the input tail (c = bytes.length / 64)
    have hdropPad : (padMsg bytes).drop (c * 64) =
        bytes.drop (c * 64) ++ ([0x80] ++ List.replicate ((119 - bytes.length % 64) % 64) 0 ++
          be64 ((8 * bytes.length) % 18446744073709551616)) := by
      rw [padMsg_eq, List.drop_append_eq_append_drop]
      have h0 : c * 64 - bytes.length = 0 := by omega
      rw [h0, List.drop_zero]
    by_cases hlast : c + 1 = (bytes.length + 9 + 63) / 64
    · -- last chunk: bit length is written; requires len % 64 ≤ 55
      rw [if_pos hlast]
      have hr55 : bytes.length % 64 ≤ 55 := by omega
      rw [if_pos (by omega)]
      rw [hset]
      have hz : (119 - bytes.length % 64) % 64 = 55 - bytes.length % 64 := by omega
      have ht : bytes.length - c * 64 = bytes.length % 64 := by omega
      rw [ht]
      have hsplit : (0x80 : Nat) :: List.replicate (64 - bytes.length % 64 - 1) 0 =
          (0x80 :: List.replicate (55 - bytes.length % 64) 0) ++ List.replicate 8 0 := by
        rw [List.cons_append, ← List.replicate_add]
        congr 2
        omega
      rw [hsplit, ← List.append_assoc]
      rw [cmBitLenFill_append _ _ (by simp; omega)]
      rw [hdropPad, hz]
      rw [List.take_of_length_le (by simp [be64]; omega)]
      have hmul : bytes.length * 8 = 8 * bytes.length := by ring
      simp [hmul]
    · -- middle staging chunk: only 0x80 is written; requires len % 64 ≥ 56
      rw [if_neg hlast]
      have hN2 : (bytes.length + 9 + 63) / 64 = bytes.length / 64 + 2 := by omega
      have hr56 : 56 ≤ bytes.length % 64 := by omega
      rw [if_pos (by omega)]
      rw [hset]
      have hz : (119 - bytes.length % 64) % 64 = 119 - bytes.length % 64 := by omega
      have ht : bytes.length - c * 64 = bytes.length % 64 := by omega
      rw [ht, hdropPad, hz]
      rw [List.take_append_eq_append_take,
        List.take_of_length_le (by rw [htail]; omega)]
      rw [htail, ht]
      congr 1
      obtain ⟨q, hq⟩ : ∃ q, 64 - bytes.length % 64 = q + 1 := ⟨63 - bytes.length % 64, by omega⟩
      rw [hq, List.singleton_append]
      rw [List.take_append_eq_append_take, List.take_succ_cons, List.take_replicate]
      have h1 : min q (119 - bytes.length % 64) = q := by omega
      have h2 : q + 1 - (0x80 :: List.replicate (119 - bytes.length % 64) 0).length = 0 := by
        simp only [List.length_cons, List.length_replicate]
        omega
      rw [h1, h2, List.take_zero, List.append_nil]
      simp
  · -- the trailing all-padding chunk (len % 64 ≥ 56, c = len / 64 + 1)
    have hck' : bytes.length < c * 64 := by omega
    have hkc : bytes.length / 64 + 1 ≤ c := by omega
    have hN2 : (bytes.length + 9 + 63) / 64 = bytes.length / 64 + 2 := by omega
    have hcval : c = bytes.length / 64 + 1 := by omega
    have hr56 : 56 ≤ bytes.length % 64 := by omega
    have ht0 : bytes.length - c * 64 = 0 := by omega
    have hdnil : bytes.drop (c * 64) = [] := List.drop_eq_nil_of_le (by omega)
    rw [if_pos (by omega)]
    rw [if_neg (by omega)]
    rw [ht0, hdnil]
    simp only [List.nil_append, Nat.sub_zero]
    have hsplit : List.replicate 64 (0 : Nat) = List.replicate 56 0 ++ List.replicate 8 0 := by
      rw [← List.replicate_add]
    rw [hsplit, cmBitLenFill_append _ _ (by simp)]
    rw [padMsg_eq, List.drop_append_eq_append_drop, List.drop_eq_nil_of_le (by omega)]
    have hz : (119 - bytes.length % 64) % 64 = 119 - bytes.length % 64 := by omega
    rw [hz]
    have hoff : c * 64 - bytes.length = (64 - bytes.length % 64 - 1) + 1 := by omega
    rw [hoff]
    rw [List.nil_append]
    have hdrop1 : List.drop (64 - bytes.length % 64 - 1 + 1)
        ([0x80] ++ (List.replicate (119 - bytes.length % 64) 0 ++
          be64 ((8 * bytes.length) % 18446744073709551616))) =
        List.drop (64 - bytes.length % 64 - 1)
          (List.replicate (119 - bytes.length % 64) 0 ++
            be64 ((8 * bytes.length) % 18446744073709551616)) := by
      rw [List.singleton_append]
      rfl
    rw [List.append_assoc, hdrop1]
    rw [List.drop_append_eq_append_drop, List.drop_replicate, List.length_replicate]
    have h1 : (119 - bytes.length % 64) - (64 - bytes.length % 64 - 1) = 56 := by omega
    have h2 : 64 - bytes.length % 64 - 1 - (119 - bytes.length % 64) = 0 := by omega
    rw [h1, h2, List.drop_zero]
    rw [List.take_of_length_le (by simp [be64])]
    have hmul : bytes.length * 8 = 8 * bytes.length := by ring
    rw [hmul]

/-- The finalizing chunk loop folds the compression function over the blocks of
the padded message that remain from the current chunk index. -/
theorem cmLoop_true (bytes : List Nat) : ∀ (fuel chunk : Nat) (state : List Nat),
    fuel + chunk = (bytes.length + 9 + 63) / 64 →
    cmLoop fuel chunk bytes true ((bytes.length + 9 + 63) / 64) state =
      List.foldl compress state (chunksCnt fuel ((padMsg bytes).drop (chunk * 64))) := by
  intro fuel
  induction fuel with
  | zero =>
    intro chunk state h
    simp [cmLoop, chunksCnt]
  | succ f ih =>
    intro chunk state h
    have hc : chunk < (bytes.length + 9 + 63) / 64 := by omega
    show cmLoop (f + 1) chunk bytes true ((bytes.length + 9 + 63) / 64) state = _
    unfold cmLoop
    rw [if_pos hc, if_neg (by simp)]
    show cmLoop f (chunk + 1) bytes true _ _ = _
    rw [ih (chunk + 1) _ (by omega)]
    conv_rhs => rw [chunksCnt]
    rw [List.foldl_cons]
    have hdd : ((padMsg bytes).drop (chunk * 64)).drop 64 = (padMsg bytes).drop ((chunk + 1) * 64) := by
      rw [List.drop_drop]
      congr 1
      ring
    rw [hdd]
    congr 2
    by_cases hdir : chunk * 64 + 64 ≤ bytes.length
    · rw [if_pos hdir]
      rw [copy_w_slice bytes (chunk * 64) hdir]
      have hblk : ((padMsg bytes).drop (chunk * 64)).take 64 = ((bytes.drop (chunk * 64)).take 64) := by
        rw [padMsg_eq, List.drop_append_eq_append_drop]
        have h0 : chunk * 64 - bytes.length = 0 := by omega
        rw [h0, List.drop_zero, List.take_append_eq_append_take]
        have h1 : 64 - (bytes.drop (chunk * 64)).length = 0 := by
          rw [List.length_drop]
          omega
        rw [h1, List.take_zero, List.append_nil]
      rw [hblk]
    · rw [if_neg hdir]
      have hs := cm_staging_block bytes chunk hc hdir
      rw [← hs]

/-- Lemma B: the const-evaluable path with `finalize = true` computes the
digest of the padded message (the same fold the streaming path computes). -/
theorem computeMidstate_true (bytes : List Nat) :
    computeMidstateUnoptimized bytes true =
      { bytes := serializeState (List.foldl compress IV (fullBlocks (padMsg bytes))),
        bytes_hashed := bytes.length } := by
  simp only [computeMidstateUnoptimized]
  rw [cmLoop_true bytes ((bytes.length + 9 + 63) / 64) 0 IV (by omega)]
  have h0 : (0 : Nat) * 64 = 0 := by omega
  rw [h0, List.drop_zero]
  have hfb : fullBlocks (padMsg bytes) = chunksCnt ((bytes.length + 9 + 63) / 64) (padMsg bytes) := by
    unfold fullBlocks
    congr 1
    rw [numChunks_padMsg]
    omega
  rw [hfb]

/-- The non-finalizing chunk loop, for inputs whose tail is at most 55 bytes:
every processed chunk is a complete in-range block, so the loop folds the
compression function over the complete blocks of the input only. -/
theorem cmLoop_false_le55 (bytes : List Nat) (hr : bytes.length % 64 ≤ 55) :
    ∀ (fuel chunk : Nat) (state : List Nat),
    fuel + chunk = (bytes.length + 9 + 63) / 64 →
    cmLoop fuel chunk bytes false ((bytes.length + 9 + 63) / 64) state =
      List.foldl compress state
        (chunksCnt (bytes.length / 64 - chunk) (bytes.drop (chunk * 64))) := by
  intro fuel
  induction fuel with
  | zero =>
    intro chunk state h
    have h0 : bytes.length / 64 - chunk = 0 := by omega
    rw [h0]
    simp [cmLoop, chunksCnt]
  | succ f ih =>
    intro chunk state h
    have hN : (bytes.length + 9 + 63) / 64 = bytes.length / 64 + 1 := by omega
    have hc : chunk < (bytes.length + 9 + 63) / 64 := by omega
    show cmLoop (f + 1) chunk bytes false ((bytes.length + 9 + 63) / 64) state = _
    unfold cmLoop
    rw [if_pos hc]
    by_cases hlast : chunk + 1 = (bytes.length + 9 + 63) / 64
    · rw [if_pos (by simp [hlast])]
      have h0 : bytes.length / 64 - chunk = 0 := by omega
      rw [h0]
      simp [chunksCnt]
    · rw [if_neg (by simp [hlast])]
      show cmLoop f (chunk + 1) bytes false _ _ = _
      rw [ih (chunk + 1) _ (by omega)]
      have hdir : chunk * 64 + 64 ≤ bytes.length := by omega
      rw [if_pos hdir, copy_w_slice bytes (chunk * 64) hdir]
      have hk : bytes.length / 64 - chunk = (bytes.length / 64 - (chunk + 1)) + 1 := by omega
      conv_rhs => rw [hk, chunksCnt, List.foldl_cons]
      rw [List.drop_drop]
      have harith : chunk * 64 + 64 = (chunk + 1) * 64 := by ring
      rw [harith]
      rfl

theorem chunksCnt_take (k : Nat) : ∀ bytes : List Nat, 64 * k ≤ bytes.length →
    chunksCnt k (bytes.take (64 * k)) = chunksCnt k bytes := by
  induction k with
  | zero => intro bytes h; rfl
  | succ k ih =>
    intro bytes h
    show chunksCnt (k + 1) _ = chunksCnt (k + 1) _
    rw [chunksCnt, chunksCnt]
    congr 1
    · rw [List.take_take]
      congr 1
      omega
    · rw [List.drop_take]
      have hm : 64 * (k + 1) - 64 = 64 * k := by omega
      rw [hm]
      exact ih (bytes.drop 64) (by simp only [List.length_drop]; omega)

theorem fullBlocks_take_eq (bytes : List Nat) :
    fullBlocks (bytes.take (bytes.length - bytes.length % 64)) =
      chunksCnt (bytes.length / 64) bytes := by
  have h1 : bytes.length - bytes.length % 64 = 64 * (bytes.length / 64) := by omega
  rw [h1]
  unfold fullBlocks
  have h2 : (bytes.take (64 * (bytes.length / 64))).length = 64 * (bytes.length / 64) := by
    rw [List.length_take]
    omega
  rw [h2]
  have h3 : 64 * (bytes.length / 64) / 64 = bytes.length / 64 := by omega
  rw [h3]
  exact chunksCnt_take (bytes.length / 64) bytes (by omega)

/-- For inputs whose length mod 64 is at most 55, the non-finalizing const path
is the midstate after exactly the complete blocks of the input, with no padding
bytes mixed in. -/
theorem computeMidstate_false_le55 (bytes : List Nat) (hr : bytes.length % 64 ≤ 55) :
    computeMidstateUnoptimized bytes false =
      { bytes := serializeState (List.foldl compress IV
          (fullBlocks (bytes.take (bytes.length - bytes.length % 64)))),
        bytes_hashed := bytes.length } := by
  simp only [computeMidstateUnoptimized]
  rw [cmLoop_false_le55 bytes hr ((bytes.length + 9 + 63) / 64) 0 IV (by omega)]
  rw [fullBlocks_take_eq]
  have h0 : (0 : Nat) * 64 = 0 := by omega
  rw [h0, List.drop_zero, Nat.sub_zero]

/-- Bitwise or of values with disjoint bit ranges is addition. -/
theorem lor_eq_add (k a b : Nat) (ha : a % 2 ^ k = 0) (hb : b < 2 ^ k) : a ||| b = a + b := by
  obtain ⟨c, rfl⟩ : ∃ c, a = 2 ^ k * c :=
    ⟨a / 2 ^ k, by rw [Nat.mul_comm]; exact (Nat.div_mul_cancel (Nat.dvd_of_mod_eq_zero ha)).symm⟩
  apply Nat.eq_of_testBit_eq
  intro i
  rw [Nat.testBit_lor]
  rcases Nat.lt_or_ge i k with hik | hik
  · obtain ⟨d, hd⟩ : ∃ d, k - i = d + 1 := ⟨k - i - 1, by omega⟩
    have hsplit2 : 2 ^ k * c = 2 ^ i * (2 ^ (k - i) * c) := by
      rw [← Nat.mul_assoc, ← pow_add]
      congr 2
      omega
    have heven : 2 ^ (k - i) * c = 2 * (2 ^ d * c) := by
      rw [hd, pow_succ]
      ring
    have h1 : 2 ^ k * c / 2 ^ i = 2 ^ (k - i) * c := by
      rw [hsplit2, Nat.mul_div_cancel_left _ (Nat.two_pow_pos i)]
    have h2 : (2 ^ k * c + b) / 2 ^ i = 2 ^ (k - i) * c + b / 2 ^ i := by
      rw [hsplit2, Nat.mul_add_div (Nat.two_pow_pos i)]
    have hba : (2 ^ k * c).testBit i = false := by
      rw [Nat.testBit_to_div_mod, h1]
      simp only [decide_eq_false_iff_not]
      omega
    have hbs : (2 ^ k * c + b).testBit i = b.testBit i := by
      rw [Nat.testBit_to_div_mod, Nat.testBit_to_div_mod, h2]
      have hmod : (2 ^ (k - i) * c + b / 2 ^ i) % 2 = b / 2 ^ i % 2 := by
        omega
      rw [hmod]
    rw [hba, hbs, Bool.false_or]
  · have hb0 : b.testBit i = false :=
      Nat.testBit_lt_two_pow (lt_of_lt_of_le hb (Nat.pow_le_pow_right (by norm_num) hik))
    rw [hb0, Bool.or_false]
    have hsplit : (2 : Nat) ^ i = 2 ^ k * 2 ^ (i - k) := by
      rw [← pow_add]
      congr 1
      omega
    have h1 : (2 ^ k * c + b) / 2 ^ i = c / 2 ^ (i - k) := by
      rw [hsplit, ← Nat.div_div_eq_div_mul, Nat.mul_add_div (Nat.two_pow_pos k),
        Nat.div_eq_of_lt hb, Nat.add_zero]
    have h2 : 2 ^ k * c / 2 ^ i = c / 2 ^ (i - k) := by
      rw [hsplit, ← Nat.div_div_eq_div_mul, Nat.mul_div_cancel_left _ (Nat.two_pow_pos k)]
    rw [Nat.testBit_to_div_mod, Nat.testBit_to_div_mod, h1, h2]

/-- Reassembling the four big-endian bytes of a 32-bit word recovers the word. -/
theorem be32_roundtrip (x : Nat) (hx : x < 4294967296) :
    ((x >>> 24) % 256) <<< 24 ||| ((x >>> 16) % 256) <<< 16 ||| ((x >>> 8) % 256) <<< 8 |||
      x % 256 = x := by
  rw [Nat.shiftLeft_eq, Nat.shiftLeft_eq, Nat.shiftLeft_eq,
    Nat.shiftRight_eq_div_pow, Nat.shiftRight_eq_div_pow, Nat.shiftRight_eq_div_pow]
  have e1 : x / 2 ^ 24 % 256 * 2 ^ 24 ||| x / 2 ^ 16 % 256 * 2 ^ 16 =
      x / 2 ^ 24 % 256 * 2 ^ 24 + x / 2 ^ 16 % 256 * 2 ^ 16 :=
    lor_eq_add 24 _ _ (by omega) (by omega)
  rw [e1]
  have e2 : x / 2 ^ 24 % 256 * 2 ^ 24 + x / 2 ^ 16 % 256 * 2 ^ 16 ||| x / 2 ^ 8 % 256 * 2 ^ 8 =
      x / 2 ^ 24 % 256 * 2 ^ 24 + x / 2 ^ 16 % 256 * 2 ^ 16 + x / 2 ^ 8 % 256 * 2 ^ 8 :=
    lor_eq_add 16 _ _ (by omega) (by omega)
  rw [e2]
  have e3 : x / 2 ^ 24 % 256 * 2 ^ 24 + x / 2 ^ 16 % 256 * 2 ^ 16 + x / 2 ^ 8 % 256 * 2 ^ 8 |||
      x % 256 =
      x / 2 ^ 24 % 256 * 2 ^ 24 + x / 2 ^ 16 % 256 * 2 ^ 16 + x / 2 ^ 8 % 256 * 2 ^ 8 +
        x % 256 :=
    lor_eq_add 8 _ _ (by omega) (by omega)
  rw [e3]
  omega

/-- Decoding the big-endian serialization of an eight-word state (as
`from_midstate` does after `midstate_unchecked`) recovers the state. -/
theorem decode_serialize (s : List Nat) (h8 : s.length = 8)
    (hlt : ∀ x ∈ s, x < 4294967296) :
    [read_u32 (serializeState s) 0, read_u32 (serializeState s) 4,
     read_u32 (serializeState s) 8, read_u32 (serializeState s) 12,
     read_u32 (serializeState s) 16, read_u32 (serializeState s) 20,
     read_u32 (serializeState s) 24, read_u32 (serializeState s) 28] = s := by
  rcases s with _ | ⟨a0, _ | ⟨a1, _ | ⟨a2, _ | ⟨a3, _ | ⟨a4, _ | ⟨a5, _ | ⟨a6, _ | ⟨a7,
    _ | ⟨a8, s⟩⟩⟩⟩⟩⟩⟩⟩⟩
  all_goals try simp at h8
  have r0 : read_u32 (serializeState [a0, a1, a2, a3, a4, a5, a6, a7]) 0 =
      ((a0 >>> 24) % 256) <<< 24 ||| ((a0 >>> 16) % 256) <<< 16 ||| ((a0 >>> 8) % 256) <<< 8 |||
        a0 % 256 := rfl
  have r1 : read_u32 (serializeState [a0, a1, a2, a3, a4, a5, a6, a7]) 4 =
      ((a1 >>> 24) % 256) <<< 24 ||| ((a1 >>> 16) % 256) <<< 16 ||| ((a1 >>> 8) % 256) <<< 8 |||
        a1 % 256 := rfl
  have r2 : read_u32 (serializeState [a0, a1, a2, a3, a4, a5, a6, a7]) 8 =
      ((a2 >>> 24) % 256) <<< 24 ||| ((a2 >>> 16) % 256) <<< 16 ||| ((a2 >>> 8) % 256) <<< 8 |||
        a2 % 256 := rfl
  have r3 : read_u32 (serializeState [a0, a1, a2, a3, a4, a5, a6, a7]) 12 =
      ((a3 >>> 24) % 256) <<< 24 ||| ((a3 >>> 16) % 256) <<< 16 ||| ((a3 >>> 8) % 256) <<< 8 |||
        a3 % 256 := rfl
  have r4 : read_u32 (serializeState [a0, a1, a2, a3, a4, a5, a6, a7]) 16 =
      ((a4 >>> 24) % 256) <<< 24 ||| ((a4 >>> 16) % 256) <<< 16 ||| ((a4 >>> 8) % 256) <<< 8 |||
        a4 % 256 := rfl
  have r5 : read_u32 (serializeState [a0, a1, a2, a3, a4, a5, a6, a7]) 20 =
      ((a5 >>> 24) % 256) <<< 24 ||| ((a5 >>> 16) % 256) <<< 16 ||| ((a5 >>> 8) % 256) <<< 8 |||
        a5 % 256 := rfl
  have r6 : read_u32 (serializeState [a0, a1, a2, a3, a4, a5, a6, a7]) 24 =
      ((a6 >>> 24) % 256) <<< 24 ||| ((a6 >>> 16) % 256) <<< 16 ||| ((a6 >>> 8) % 256) <<< 8 |||
        a6 % 256 := rfl
  have r7 : read_u32 (serializeState [a0, a1, a2, a3, a4, a5, a6, a7]) 28 =
      ((a7 >>> 24) % 256) <<< 24 ||| ((a7 >>> 16) % 256) <<< 16 ||| ((a7 >>> 8) % 256) <<< 8 |||
        a7 % 256 := rfl
  rw [r0, r1, r2, r3, r4, r5, r6, r7]
  rw [be32_roundtrip a0 (hlt a0 (by simp)), be32_roundtrip a1 (hlt a1 (by simp)),
    be32_roundtrip a2 (hlt a2 (by simp)), be32_roundtrip a3 (hlt a3 (by simp)),
    be32_roundtrip a4 (hlt a4 (by simp)), be32_roundtrip a5 (hlt a5 (by simp)),
    be32_roundtrip a6 (hlt a6 (by simp)), be32_roundtrip a7 (hlt a7 (by simp))]

/-- Rebuilding an engine from its own (unchecked) midstate is the identity, for
well-formed engines whose buffer is empty. -/
theorem fromMidstate_midstateUnchecked (e : HashEngine) (h8 : e.h.length = 8)
    (hlt : ∀ x ∈ e.h, x < 4294967296) (hbuf : e.buffer = []) :
    HashEngine.fromMidstate e.midstateUnchecked = e := by
  rcases e with ⟨buf, h, n⟩
  simp only at h8 hlt hbuf
  subst hbuf
  simp only [HashEngine.fromMidstate, HashEngine.midstateUnchecked]
  rw [decode_serialize h h8 hlt]

theorem serializeState_length (s : List Nat) : (serializeState s).length = 32 := by
  simp [serializeState, toBe32]

theorem hashUnoptimized_length (bytes : List Nat) : (hashUnoptimized bytes).length = 32 := by
  unfold hashUnoptimized
  simp only [computeMidstateUnoptimized]
  exact serializeState_length _

theorem tagBuf_append (h : List Nat) (h32 : h.length = 32) : tagBuf h = h ++ h := by
  apply List.ext_getElem?
  intro i
  unfold tagBuf
  rw [List.getElem?_map, List.getElem?_append]
  rcases Nat.lt_or_ge i 32 with hi | hi
  · rw [if_pos (by omega)]
    have hr : (List.range 64)[i]? = some i := by
      rw [List.getElem?_range (by omega)]
    rw [hr]
    simp only [Option.map_some']
    rw [h32]
    have hmod : i % 32 = i := by omega
    rw [hmod]
    rw [List.getElem?_eq_getElem (by omega), List.getD_eq_getElem h 0 (by omega)]
  · rw [if_neg (by omega), h32]
    rcases Nat.lt_or_ge i 64 with hi2 | hi2
    · have hr : (List.range 64)[i]? = some i := by
        rw [List.getElem?_range (by omega)]
      rw [hr]
      simp only [Option.map_some']
      have hmod : i % 32 = i - 32 := by omega
      rw [hmod]
      rw [List.getElem?_eq_getElem (by omega), List.getD_eq_getElem h 0 (by omega)]
    · have hr : (List.range 64)[i]? = none := by
        rw [List.getElem?_eq_none]
        simp only [List.length_range]
        omega
      rw [hr]
      simp only [Option.map_none']
      rw [List.getElem?_eq_none (by omega)]

/-- A 64-byte input to the non-finalizing const path is absorbed as exactly one
block. -/
theorem computeMidstate_64 (buf : List Nat) (h64 : buf.length = 64) :
    computeMidstateUnoptimized buf false =
      { bytes := serializeState (compress IV buf), bytes_hashed := 64 } := by
  rw [computeMidstate_false_le55 buf (by omega), h64]
  have h1 : (64 : Nat) - 64 % 64 = 64 := by omega
  rw [h1, List.take_of_length_le (by omega)]
  rw [fullBlocks_cons (by omega), List.take_of_length_le (by omega),
    List.drop_eq_nil_of_le (by omega), fullBlocks_small (by simp)]
  rfl

/-- General tagged-midstate lemma: `hash_tag` is the state after absorbing the
single 64-byte block `SHA256(tag) ‖ SHA256(tag)` from the IV, with 64 bytes
hashed. -/
theorem hashTag_spec_general (tag : List Nat) :
    hashTag tag =
      { bytes := serializeState (compress IV (hashUnoptimized tag ++ hashUnoptimized tag)),
        bytes_hashed := 64 } := by
  unfold hashTag
  rw [tagBuf_append _ (hashUnoptimized_length tag)]
  exact computeMidstate_64 _
    (by rw [List.length_append, hashUnoptimized_length])

/-! Checked mirror of the const path.  Every array access of
`compute_midstate_unoptimized` (the `bytes[offset + i]` reads, the `buf[i]`
and `buf[56..64]` writes, and the 4-byte reads of `read_u32`/`copy_w`) is
replaced by a bounds-checked access that fails with `none`, and every loop
fails with `none` if it would run past its modelled trip count.  Totality of
the source routine is the theorem that this mirror always returns `some` of
the unchecked result. -/

/-- Checked `read_u32`: fails if any of the four byte reads is out of range. -/
def read_u32Checked (bytes : List Nat) (index : Nat) : Option Nat := do
  let b0 ← bytes[index + 0]?
  let b1 ← bytes[index + 1]?
  let b2 ← bytes[index + 2]?
  let b3 ← bytes[index + 3]?
  some ((b0 <<< 24) ||| (b1 <<< 16) ||| (b2 <<< 8) ||| b3)

/-- Checked `copy_w`: sixteen checked reads. -/
def copy_wChecked (bytes : List Nat) (index : Nat) : Option (List Nat) :=
  (List.range 16).mapM fun i => read_u32Checked bytes (index + i * 4)

/-- Checked array write: fails if the index is out of range. -/
def setChecked (l : List Nat) (i : Nat) (v : Nat) : Option (List Nat) :=
  if i < l.length then some (l.set i v) else none

/-- Checked staging-buffer copy loop. -/
def cmCopyLoopChecked : Nat → List Nat → Nat → List Nat → Nat → Option (List Nat × Nat)
  | 0, bytes, offset, buf, i =>
    if offset + i < bytes.length then none else some (buf, i)
  | fuel+1, bytes, offset, buf, i =>
    if offset + i < bytes.length then do
      let b ← bytes[offset + i]?
      let buf2 ← setChecked buf i b
      cmCopyLoopChecked fuel bytes offset buf2 (i + 1)
    else some (buf, i)

/-- Checked bit-length writes into `buf[56..64]`. -/
def cmBitLenFillChecked (buf : List Nat) (bitLen : Nat) : Option (List Nat) := do
  let b0 ← setChecked buf 56 ((bitLen >>> 56) % 256)
  let b1 ← setChecked b0 57 ((bitLen >>> 48) % 256)
  let b2 ← setChecked b1 58 ((bitLen >>> 40) % 256)
  let b3 ← setChecked b2 59 ((bitLen >>> 32) % 256)
  let b4 ← setChecked b3 60 ((bitLen >>> 24) % 256)
  let b5 ← setChecked b4 61 ((bitLen >>> 16) % 256)
  let b6 ← setChecked b5 62 ((bitLen >>> 8) % 256)
  setChecked b6 63 (bitLen % 256)

/-- Checked chunk loop. -/
def cmLoopChecked : Nat → Nat → List Nat → Bool → Nat → List Nat → Option (List Nat)
  | 0, chunk, _, finalize, numChunks, state =>
    if chunk < numChunks ∧ ¬(finalize = false ∧ chunk + 1 = numChunks) then none
    else some state
  | fuel+1, chunk, bytes, finalize, numChunks, state =>
    if chunk < numChunks then
      if finalize = false ∧ chunk + 1 = numChunks then some state
      else do
        let w ←
          if chunk * 64 + 64 ≤ bytes.length then copy_wChecked bytes (chunk * 64)
          else do
            let bi ← cmCopyLoopChecked bytes.length bytes (chunk * 64) (List.replicate 64 0) 0
            let buf1 ←
              if bytes.length % 64 ≤ 64 - 9 ∨ chunk + 2 = numChunks then
                setChecked bi.1 bi.2 0x80
              else some bi.1
            let buf2 ←
              if chunk + 1 = numChunks then
                cmBitLenFillChecked buf1 ((bytes.length * 8) % 18446744073709551616)
              else some buf1
            copy_wChecked buf2 0
        cmLoopChecked fuel (chunk + 1) bytes finalize numChunks (processWords state w)
    else some state

/-- Checked `compute_midstate_unoptimized`. -/
def computeMidstateChecked (bytes : List Nat) (finalize : Bool) : Option Midstate := do
  let numChunks := (bytes.length + 9 + 63) / 64
  let state ← cmLoopChecked numChunks 0 bytes finalize numChunks IV
  some { bytes := serializeState state, bytes_hashed := bytes.length }

theorem read_u32Checked_eq (bytes : List Nat) (index : Nat)
    (hin : index + 4 ≤ bytes.length) :
    read_u32Checked bytes index = some (read_u32 bytes index) := by
  unfold read_u32Checked read_u32
  rw [List.getElem?_eq_getElem (by omega), List.getElem?_eq_getElem (by omega),
    List.getElem?_eq_getElem (by omega), List.getElem?_eq_getElem (by omega)]
  simp only [Option.bind_eq_bind, Option.some_bind]
  rw [List.getD_eq_getElem bytes 0 (by omega), List.getD_eq_getElem bytes 0 (by omega),
    List.getD_eq_getElem bytes 0 (by omega), List.getD_eq_getElem bytes 0 (by omega)]

theorem mapM_option_eq_map (f : Nat → Option Nat) (g : Nat → Nat) :
    ∀ l : List Nat, (∀ i ∈ l, f i = some (g i)) → l.mapM f = some (l.map g) := by
  intro l
  induction l with
  | nil => intro _; rfl
  | cons a l ih =>
    intro hf
    rw [List.mapM_cons, hf a (by simp), ih (fun i hi => hf i (by simp [hi]))]
    rfl

theorem copy_wChecked_eq (bytes : List Nat) (index : Nat)
    (hin : index + 64 ≤ bytes.length) :
    copy_wChecked bytes index = some (copy_w bytes index) := by
  unfold copy_wChecked copy_w
  apply mapM_option_eq_map
  intro i hi
  have hi16 : i < 16 := List.mem_range.mp hi
  exact read_u32Checked_eq bytes (index + i * 4) (by omega)

theorem cmCopyLoopChecked_eq : ∀ (fuel : Nat) (bytes : List Nat) (offset : Nat)
    (buf : List Nat) (i : Nat),
    bytes.length - (offset + i) ≤ fuel →
    i + (bytes.length - (offset + i)) ≤ buf.length →
    cmCopyLoopChecked fuel bytes offset buf i = some (cmCopyLoop fuel bytes offset buf i) := by
  intro fuel
  induction fuel with
  | zero =>
    intro bytes offset buf i hf hb
    unfold cmCopyLoopChecked cmCopyLoop
    rw [if_neg (by omega)]
  | succ f ih =>
    intro bytes offset buf i hf hb
    unfold cmCopyLoopChecked cmCopyLoop
    by_cases hc : offset + i < bytes.length
    · rw [if_pos hc, if_pos hc]
      rw [List.getElem?_eq_getElem (by omega)]
      simp only [Option.bind_eq_bind, Option.some_bind]
      rw [setChecked, if_pos (by omega)]
      simp only [Option.some_bind]
      rw [← List.getD_eq_getElem bytes 0 (by omega)]
      exact ih bytes offset (buf.set i (bytes.getD (offset + i) 0)) (i + 1)
        (by omega) (by simp only [List.length_set]; omega)
    · rw [if_neg hc, if_neg hc]

theorem cmBitLenFillChecked_eq (buf : List Nat) (bitLen : Nat) (h64 : buf.length = 64) :
    cmBitLenFillChecked buf bitLen = some (cmBitLenFill buf bitLen) := by
  unfold cmBitLenFillChecked cmBitLenFill setChecked
  simp [List.length_set, h64]

theorem cmLoopChecked_eq (bytes : List Nat) (finalize : Bool) :
    ∀ (fuel chunk : Nat) (state : List Nat),
    fuel + chunk = (bytes.length + 9 + 63) / 64 →
    cmLoopChecked fuel chunk bytes finalize ((bytes.length + 9 + 63) / 64) state =
      some (cmLoop fuel chunk bytes finalize ((bytes.length + 9 + 63) / 64) state) := by
  intro fuel
  induction fuel with
  | zero =>
    intro chunk state h
    unfold cmLoopChecked cmLoop
    rw [if_neg (by omega)]
  | succ f ih =>
    intro chunk state h
    have hc : chunk < (bytes.length + 9 + 63) / 64 := by omega
    unfold cmLoopChecked cmLoop
    rw [if_pos hc, if_pos hc]
    by_cases hbrk : finalize = false ∧ chunk + 1 = (bytes.length + 9 + 63) / 64
    · rw [if_pos hbrk, if_pos hbrk]
    · rw [if_neg hbrk, if_neg hbrk]
      by_cases hdir : chunk * 64 + 64 ≤ bytes.length
      · rw [if_pos hdir, if_pos hdir, copy_wChecked_eq bytes (chunk * 64) (by omega)]
        simp only [Option.bind_eq_bind, Option.some_bind]
        exact ih (chunk + 1) _ (by omega)
      · rw [if_neg hdir, if_neg hdir]
        have hcp := cmCopyLoop_staging bytes (chunk * 64) (by omega)
        rw [cmCopyLoopChecked_eq bytes.length bytes (chunk * 64) (List.replicate 64 0) 0
          (by omega) (by simp only [List.length_replicate]; omega)]
        simp only [Option.bind_eq_bind, Option.some_bind]
        rw [hcp]
        have hlen1 : (bytes.drop (chunk * 64) ++
            List.replicate (64 - (bytes.length - chunk * 64)) 0).length = 64 := by
          simp only [List.length_append, List.length_drop, List.length_replicate]
          omega
        by_cases h80 : bytes.length % 64 ≤ 64 - 9 ∨ chunk + 2 = (bytes.length + 9 + 63) / 64
        · rw [if_pos h80, if_pos h80]
          rw [setChecked, if_pos (by rw [hlen1]; omega)]
          simp only [Option.bind_eq_bind, Option.some_bind]
          by_cases hlast : chunk + 1 = (bytes.length + 9 + 63) / 64
          · rw [if_pos hlast, if_pos hlast,
              cmBitLenFillChecked_eq _ _ (by simp only [List.length_set]; rw [hlen1])]
            simp only [Option.bind_eq_bind, Option.some_bind]
            rw [copy_wChecked_eq _ 0 (by simp only [cmBitLenFill, List.length_set]; rw [hlen1])]
            simp only [Option.bind_eq_bind, Option.some_bind]
            exact ih (chunk + 1) _ (by omega)
          · rw [if_neg hlast, if_neg hlast]
            rw [copy_wChecked_eq _ 0 (by simp only [List.length_set]; rw [hlen1])]
            simp only [Option.bind_eq_bind, Option.some_bind]
            exact ih (chunk + 1) _ (by omega)
        · rw [if_neg h80, if_neg h80]
          simp only [Option.bind_eq_bind, Option.some_bind]
          by_cases hlast : chunk + 1 = (bytes.length + 9 + 63) / 64
          · rw [if_pos hlast, if_pos hlast, cmBitLenFillChecked_eq _ _ hlen1]
            simp only [Option.bind_eq_bind, Option.some_bind]
            rw [copy_wChecked_eq _ 0 (by simp only [cmBitLenFill, List.length_set]; rw [hlen1])]
            simp only [Option.bind_eq_bind, Option.some_bind]
            exact ih (chunk + 1) _ (by omega)
          · rw [if_neg hlast, if_neg hlast]
            rw [copy_wChecked_eq _ 0 (by rw [hlen1])]
            simp only [Option.bind_eq_bind, Option.some_bind]
            exact ih (chunk + 1) _ (by omega)

/-- Totality and in-bounds safety of the const path: the checked mirror never
fails and agrees with the unchecked routine, for every input and both modes. -/
theorem computeMidstateChecked_eq (bytes : List Nat) (finalize : Bool) :
    computeMidstateChecked bytes finalize = some (computeMidstateUnoptimized bytes finalize) := by
  unfold computeMidstateChecked
  simp only [computeMidstateUnoptimized]
  rw [cmLoopChecked_eq bytes finalize ((bytes.length + 9 + 63) / 64) 0 IV (by omega)]
  rfl

theorem inputE_nil_eng (e : HashEngine) : e.inputE [] = e := rfl

theorem foldl_inputE (parts : List (List Nat)) :
    ∀ m : List Nat, List.foldl HashEngine.inputE (HashEngine.new.inputE m) parts =
      HashEngine.new.inputE (m ++ parts.flatten) := by
  induction parts with
  | nil =>
    intro m
    simp
  | cons p ps ih =>
    intro m
    rw [List.foldl_cons, newE_inputE, ih (m ++ p), List.flatten_cons, List.append_assoc]

/-! Claim theorems. -/

/-- C1 (amended): for every byte slice, `compute_midstate_unoptimized(bytes, false)`
returns `bytes_hashed = len` always, and whenever `len % 64 ≤ 55` its 32 state
bytes are the big-endian serialization of the state obtained by compressing,
from the FIPS IV, exactly the first `len - (len % 64)` bytes with no padding
mixed in.  (For `len % 64` in 56..63 the routine additionally absorbs a block
holding the input tail, the `0x80` delimiter and zero padding; see the
counterexample.) -/
theorem compute_midstate_unfinalized_spec (bytes : List Nat) :
    (computeMidstateUnoptimized bytes false).bytes_hashed = bytes.length ∧
    (bytes.length % 64 ≤ 55 →
      computeMidstateUnoptimized bytes false =
        { bytes := serializeState (List.foldl compress IV
            (fullBlocks (bytes.take (bytes.length - bytes.length % 64)))),
          bytes_hashed := bytes.length }) :=
  ⟨rfl, fun hr => computeMidstate_false_le55 bytes hr⟩

/-- C1 counterexample: on a 56-byte input (`len % 64 = 56`), the claim as
stated fails — the returned state is not the serialization of the state after
the first `len - (len % 64) = 0` blocks (the IV), because the loop absorbs a
padded block holding the tail and the `0x80` delimiter. -/
theorem compute_midstate_unfinalized_counterexample :
    computeMidstateUnoptimized (List.replicate 56 0) false ≠
      { bytes := serializeState (List.foldl compress IV
          (fullBlocks ((List.replicate 56 0).take (56 - 56 % 64)))),
        bytes_hashed := 56 } := by
  decide

/-- Witness for C1's amended theorem at a concrete input of length 64. -/
theorem compute_midstate_unfinalized_spec_witness :
    (computeMidstateUnoptimized (List.replicate 64 1) false).bytes_hashed = 64 ∧
    computeMidstateUnoptimized (List.replicate 64 1) false =
      { bytes := serializeState (List.foldl compress IV
          (fullBlocks ((List.replicate 64 1).take (64 - 64 % 64)))),
        bytes_hashed := 64 } :=
  ⟨(compute_midstate_unfinalized_spec (List.replicate 64 1)).1,
   (compute_midstate_unfinalized_spec (List.replicate 64 1)).2 (by decide)⟩

/-- C2: the digest of the empty string and of
"The quick brown fox jumps over the lazy dog" match the published SHA-256
test vectors. -/
theorem hash_test_vectors :
    hash [] = [0xe3, 0xb0, 0xc4, 0x42, 0x98, 0xfc, 0x1c, 0x14, 0x9a, 0xfb, 0xf4, 0xc8, 0x99,
      0x6f, 0xb9, 0x24, 0x27, 0xae, 0x41, 0xe4, 0x64, 0x9b, 0x93, 0x4c, 0xa4, 0x95, 0x99, 0x1b,
      0x78, 0x52, 0xb8, 0x55] ∧
    hash [84, 104, 101, 32, 113, 117, 105, 99, 107, 32, 98, 114, 111, 119, 110, 32, 102, 111,
      120, 32, 106, 117, 109, 112, 115, 32, 111, 118, 101, 114, 32, 116, 104, 101, 32, 108, 97,
      122, 121, 32, 100, 111, 103] =
    [0xd7, 0xa8, 0xfb, 0xb3, 0x07, 0xd7, 0x80, 0x94, 0x69, 0xca, 0x9a, 0xbc, 0xb0, 0x08, 0x2e,
      0x4f, 0x8d, 0x56, 0x51, 0xe4, 0x6d, 0x3c, 0xdb, 0x76, 0x2d, 0x02, 0xd0, 0xbf, 0x37, 0xc9,
      0xe5, 0x92] := by
  constructor
  · decide
  · decide

/-- C3: for every byte sequence, the streaming digest equals the
const-evaluable digest. -/
theorem hash_eq_hash_unoptimized (s : List Nat) : hash s = hashUnoptimized s := by
  rw [hash_char, hashUnoptimized, computeMidstate_true]

/-- C4: feeding any partition of a byte sequence chunk by chunk to a single
engine and finalizing produces the same digest as feeding the concatenation in
one call — the digest depends only on the concatenation of the inputs. -/
theorem input_chunk_invariance (parts : List (List Nat)) :
    fromEngine (List.foldl HashEngine.inputE HashEngine.new parts) = hash parts.flatten := by
  unfold hash
  have h0 : HashEngine.new = HashEngine.new.inputE [] := (inputE_nil_eng _).symm
  conv_lhs => rw [h0, foldl_inputE]
  rw [List.nil_append]

/-- C5: `midstate()` succeeds with the big-endian serialization of the state
exactly when `bytes_hashed` is a multiple of 64 (equivalently
`can_extract_midstate()`), and otherwise fails with an error carrying exactly
the offending `bytes_hashed`.  The Rust function takes `&self`, so the engine
is unchanged; the model is a pure function of the engine. -/
theorem midstate_extraction (e : HashEngine) :
    (e.canExtractMidstate = true ↔ e.bytes_hashed % 64 = 0) ∧
    (e.bytes_hashed % 64 = 0 →
      e.midstate = .ok { bytes := serializeState e.h, bytes_hashed := e.bytes_hashed }) ∧
    (e.bytes_hashed % 64 ≠ 0 →
      e.midstate = .error { invalid_n_bytes_hashed := e.bytes_hashed }) := by
  unfold HashEngine.midstate HashEngine.canExtractMidstate HashEngine.midstateUnchecked
  refine ⟨by simp, fun h => ?_, fun h => ?_⟩
  · rw [if_neg (by simp [h])]
  · rw [if_pos (by simp [h])]

/-- Witness for C5 at engines with 63 and 0 bytes hashed. -/
theorem midstate_extraction_witness :
    (HashEngine.new.inputE (List.replicate 63 2)).midstate =
      .error { invalid_n_bytes_hashed := 63 } ∧
    HashEngine.new.midstate = .ok { bytes := serializeState IV, bytes_hashed := 0 } :=
  ⟨(midstate_extraction (HashEngine.new.inputE (List.replicate 63 2))).2.2 (by decide),
   (midstate_extraction HashEngine.new).2.1 (by decide)⟩

/-- C6: for a well-formed engine at a block boundary, resuming from its
midstate and feeding any tail yields the same digest as feeding the tail to
the engine itself. -/
theorem midstate_roundtrip (e : HashEngine) (m : Midstate) (t : List Nat)
    (h8 : e.h.length = 8) (hlt : ∀ x ∈ e.h, x < 4294967296) (hbuf : e.buffer = [])
    (hm : e.midstate = .ok m) :
    fromEngine ((HashEngine.fromMidstate m).inputE t) = fromEngine (e.inputE t) := by
  have hmm : m = e.midstateUnchecked := by
    unfold HashEngine.midstate at hm
    by_cases hc : e.canExtractMidstate = true
    · rw [if_neg (by simp [hc])] at hm
      exact (Except.ok.inj hm).symm
    · rw [if_pos (by simp [hc])] at hm
      cases hm
  rw [hmm, fromMidstate_midstateUnchecked e h8 hlt hbuf]

/-- Witness for C6: a fresh engine, its midstate, and a 3-byte tail. -/
theorem midstate_roundtrip_witness :
    fromEngine ((HashEngine.fromMidstate
        { bytes := serializeState IV, bytes_hashed := 0 }).inputE [1, 2, 3]) =
      fromEngine (HashEngine.new.inputE [1, 2, 3]) :=
  midstate_roundtrip HashEngine.new { bytes := serializeState IV, bytes_hashed := 0 } [1, 2, 3]
    (by decide) (by decide) rfl rfl

/-- C7: for every tag, `hash_tag` is the compression state after absorbing the
single 64-byte block `SHA256(tag) ‖ SHA256(tag)` from the FIPS IV with
`bytes_hashed = 64`; in particular the "TapLeaf" midstate is the published
constant. -/
theorem hash_tag_tagged_midstate :
    (∀ tag : List Nat, hashTag tag =
      { bytes := serializeState (compress IV (hashUnoptimized tag ++ hashUnoptimized tag)),
        bytes_hashed := 64 }) ∧
    hashTag [84, 97, 112, 76, 101, 97, 102] =
      { bytes := [156, 224, 228, 230, 124, 17, 108, 57, 56, 179, 202, 242, 195, 15, 80, 137,
          211, 243, 147, 108, 71, 99, 110, 96, 125, 179, 62, 234, 221, 198, 240, 201],
        bytes_hashed := 64 } := by
  constructor
  · exact hashTag_spec_general
  · decide

/-- C8: `Midstate::new` fails (panics; in const context halts compilation)
exactly when `bytes_hashed` is not a multiple of 64, and otherwise returns a
midstate holding exactly the given bytes and count. -/
theorem midstate_new_spec (state : List Nat) (n : Nat) :
    (Midstate.new state n = none ↔ n % 64 ≠ 0) ∧
    (n % 64 = 0 → Midstate.new state n = some { bytes := state, bytes_hashed := n }) := by
  unfold Midstate.new
  constructor
  · by_cases h : n % 64 = 0 <;> simp [h]
  · intro h
    simp [h]

/-- Witness for C8 at counts 64 (accepted) and 63 (rejected). -/
theorem midstate_new_spec_witness :
    Midstate.new (List.replicate 32 7) 64 =
      some { bytes := List.replicate 32 7, bytes_hashed := 64 } ∧
    (Midstate.new (List.replicate 32 7) 63 = none ↔ (63 : Nat) % 64 ≠ 0) :=
  ⟨(midstate_new_spec (List.replicate 32 7) 64).2 (by decide),
   (midstate_new_spec (List.replicate 32 7) 63).1⟩

end Sha256
